import Mathlib

/-!
Verification of the `compare-env` CLI utility (`src/CompareEnvUtil.ts`,
`src/index.ts`, `src/types.ts`).

The program compares two configuration files (`.env` or `.yaml`/`.yml`).
We shallowly embed the comparison engine:

* `JVal` models the plain JavaScript values produced by `yaml.load`
  (scalars, `null`, objects, arrays).
* `flattenE` models `CompareEnv.flattenObj` including the JavaScript
  `typeof v === 'object' && v !== null` test (which is true for arrays),
  the `for (const key in obj)` iteration (array indices appear as the
  string keys "0", "1", …), and the overwrite semantics of
  `Object.assign` / `result[newKey] = v`.
* `compareEnvKeys` models `CompareEnv.compareEnvKeys`.
* `getValueDifferences` models `CompareEnv.getValueDifferences`.
* `runCompare` models `CompareEnv.compare`, with the file system, the
  `dotenv.parse` result and the `yaml.load` result of each existing file
  supplied as an oracle (`RawFile`), and the observable behaviour (file
  reads, console output, error reports) recorded as a trace of `Event`s
  together with the process exit code.
-/

namespace CompareEnv

/-- Plain JavaScript values as produced by `js-yaml`'s `yaml.load`:
scalars (strings, numbers, booleans — their printed form is irrelevant
to the claims, so they are collapsed into `scalar`), `null`, objects
(ordered key/value entry lists) and arrays. -/
inductive JVal where
  | scalar : String → JVal
  | jnull  : JVal
  | obj    : List (String × JVal) → JVal
  | arr    : List JVal → JVal
deriving Repr

/- Structural equality test on `JVal` (used to give `JVal` a `BEq`
instance; on the scalar and null leaves stored by `flattenObj` it agrees
with JavaScript's strict equality `===`). -/
mutual
def beqV : JVal → JVal → Bool
  | .scalar a, .scalar b => a == b
  | .jnull, .jnull => true
  | .obj a, .obj b => beqVE a b
  | .arr a, .arr b => beqVL a b
  | _, _ => false

def beqVE : List (String × JVal) → List (String × JVal) → Bool
  | [], [] => true
  | (k1, v1) :: r1, (k2, v2) :: r2 => k1 == k2 && beqV v1 v2 && beqVE r1 r2
  | _, _ => false

def beqVL : List JVal → List JVal → Bool
  | [], [] => true
  | v1 :: r1, v2 :: r2 => beqV v1 v2 && beqVL r1 r2
  | _, _ => false
end

instance : BEq JVal := ⟨beqV⟩

/-- The JavaScript test `typeof v === 'object' && v !== null` used by
`flattenObj`: true exactly for objects and arrays. -/
def isContainer : JVal → Bool
  | .obj _ => true
  | .arr _ => true
  | _ => false

/-- `for (const key in a)` over a JavaScript array visits the indices
as strings "0", "1", …; `enumFrom i vs` lists the elements of `vs`
keyed by their stringified indices starting at `i`. -/
def enumFrom : Nat → List JVal → List (String × JVal)
  | _, [] => []
  | i, v :: vs => (toString i, v) :: enumFrom (i + 1) vs

/-- The key/value entries visited by `for (const key in v)` for a
container value `v` (object entries, or index-keyed array elements). -/
def entriesOf : JVal → List (String × JVal)
  | .obj es => es
  | .arr vs => enumFrom 0 vs
  | _ => []

/- Structural size of a `JVal`, ignoring keys: the termination measure
of the functions below that walk documents the way `flattenObj` does. -/
mutual
def jsize : JVal → Nat
  | .scalar _ => 1
  | .jnull => 1
  | .obj es => 1 + jsizeE es
  | .arr vs => 1 + jsizeL vs

def jsizeE : List (String × JVal) → Nat
  | [] => 0
  | (_, v) :: es => jsize v + jsizeE es

def jsizeL : List JVal → Nat
  | [] => 0
  | v :: vs => jsize v + jsizeL vs
end

/-- `result[newKey] = v` on a JavaScript object modelled as an ordered
entry list: if the key already exists its value is replaced in place,
otherwise the entry is appended. -/
def assignEntry (l : List (String × JVal)) (k : String) (v : JVal) : List (String × JVal) :=
  if l.any (fun p => p.1 == k) then
    l.map (fun p => if p.1 == k then (k, v) else p)
  else
    l ++ [(k, v)]

/-- `Object.assign(l, m)`: every entry of `m` is assigned into `l` in
order. -/
def assignAll (l m : List (String × JVal)) : List (String × JVal) :=
  m.foldl (fun acc kv => assignEntry acc kv.1 kv.2) l

/-- `CompareEnv.flattenObj(obj, parentKey, '.')`, with the accumulated
`result` object made explicit (the JS function folds over the `for … in`
iteration of `obj`, which `entriesOf` reproduces, and starts from
`result = {}`):

```ts
for (const key in obj) {
  const newKey = parentKey ? parentKey + sep + key : key;
  if (typeof obj[key] === 'object' && obj[key] !== null) {
    Object.assign(result, this.flattenObj(obj[key], newKey, sep));
  } else {
    result[newKey] = obj[key];
  }
}
```

Note `parentKey ? … : …` is the JavaScript truthiness test, i.e. the
test `parentKey ≠ ""`. -/
def flattenE : List (String × JVal) → String → List (String × JVal) → List (String × JVal)
  | [], _, result => result
  | (k, v) :: rest, parentKey, result =>
    let newKey := if parentKey = "" then k else parentKey ++ "." ++ k
    if h : isContainer v = true then
      flattenE rest parentKey (assignAll result (flattenE (entriesOf v) newKey []))
    else
      flattenE rest parentKey (assignEntry result newKey v)
termination_by es _ _ => jsizeE es
decreasing_by
  · have h1 : jsizeE (entriesOf v) < jsize v := by
      cases v with
      | obj es => simp [entriesOf, jsize]
      | arr vs =>
        have h2 : ∀ (ws : List JVal) (i : Nat), jsizeE (enumFrom i ws) = jsizeL ws := by
          intro ws
          induction ws with
          | nil => intro i; simp [enumFrom, jsizeE, jsizeL]
          | cons w ws ih => intro i; simp [enumFrom, jsizeE, jsizeL, ih]
        simp [entriesOf, jsize, h2]
      | scalar s => simp [isContainer] at h
      | jnull => simp [isContainer] at h
    simp [jsizeE]; omega
  · have h1 : 1 ≤ jsize v := by cases v <;> simp [jsize]
    simp [jsizeE]; omega
  · have h1 : 1 ≤ jsize v := by cases v <;> simp [jsize]
    simp [jsizeE]; omega

/-- A key segment is "good" when it is nonempty and contains no `'.'`
character.  (Nonemptiness matters because `flattenObj` tests
`parentKey ?`, JavaScript truthiness, so an empty key collapses paths;
a dot inside a key makes two distinct paths join to the same flattened
key.) -/
def goodSeg (k : String) : Bool :=
  !(k == "") && !(k.data.contains '.')

/-- Well-formedness of a document's entry list, as needed for flattening
to be collision-free: at every level (descending through objects and
index-keyed arrays exactly as `flattenObj` does) each key is a good
segment and keys are pairwise distinct. -/
def goodE : List (String × JVal) → Bool
  | [] => true
  | (k, v) :: rest =>
    goodSeg k && !((rest.map Prod.fst).contains k) &&
      (if h : isContainer v = true then goodE (entriesOf v) else true) && goodE rest
termination_by es => jsizeE es
decreasing_by
  · have h1 : jsizeE (entriesOf v) < jsize v := by
      cases v with
      | obj es => simp [entriesOf, jsize]
      | arr vs =>
        have h2 : ∀ (ws : List JVal) (i : Nat), jsizeE (enumFrom i ws) = jsizeL ws := by
          intro ws
          induction ws with
          | nil => intro i; simp [enumFrom, jsizeE, jsizeL]
          | cons w ws ih => intro i; simp [enumFrom, jsizeE, jsizeL, ih]
        simp [entriesOf, jsize, h2]
      | scalar s => simp [isContainer] at h
      | jnull => simp [isContainer] at h
    simp [jsizeE]; omega
  · have h1 : 1 ≤ jsize v := by cases v <;> simp [jsize]
    simp [jsizeE]; omega

/-- The leaves of a document: for every value on which `flattenObj` takes
its `else` branch (a non-object, non-null value — including `null` itself,
which JavaScript's `v !== null` test routes to the `else` branch? no:
`null` fails `v !== null` and is stored as a leaf too), the list records
the path of keys leading to it together with the value.  Arrays
contribute their elements under their stringified indices, exactly as
the `for … in` iteration of `flattenObj` visits them. -/
def leavesE : List (String × JVal) → List (List String × JVal)
  | [] => []
  | (k, v) :: rest =>
    (if h : isContainer v = true then
      (leavesE (entriesOf v)).map (fun pu => (k :: pu.1, pu.2))
    else
      [([k], v)]) ++ leavesE rest
termination_by es => jsizeE es
decreasing_by
  · have h1 : jsizeE (entriesOf v) < jsize v := by
      cases v with
      | obj es => simp [entriesOf, jsize]
      | arr vs =>
        have h2 : ∀ (ws : List JVal) (i : Nat), jsizeE (enumFrom i ws) = jsizeL ws := by
          intro ws
          induction ws with
          | nil => intro i; simp [enumFrom, jsizeE, jsizeL]
          | cons w ws ih => intro i; simp [enumFrom, jsizeE, jsizeL, ih]
        simp [entriesOf, jsize, h2]
      | scalar s => simp [isContainer] at h
      | jnull => simp [isContainer] at h
    simp [jsizeE]; omega
  · have h1 : 1 ≤ jsize v := by cases v <;> simp [jsize]
    simp [jsizeE]; omega

/-- Join a nonempty path of keys with `'.'` (the flattened key of a
leaf reached through that path). -/
def joinPath : List String → String
  | [] => ""
  | [k] => k
  | k :: k' :: ks => k ++ "." ++ joinPath (k' :: ks)

/-- The flattened key of a path reached below the accumulated
`parentKey` (which is `""` at the top level — the JavaScript truthiness
test `parentKey ?`). -/
def keyUnder (parentKey : String) (path : List String) : String :=
  if parentKey = "" then joinPath path else parentKey ++ "." ++ joinPath path

/-- The expected flattening result for entry list `es` below
`parentKey`: each leaf keyed by its joined path. -/
def mleaves (es : List (String × JVal)) (parentKey : String) : List (String × JVal) :=
  (leavesE es).map (fun pu => (keyUnder parentKey pu.1, pu.2))

/-- `CompareEnv.compareEnvKeys(firstKeys, secondKeys)`: the JS code
converts each array to a `Set` purely for lookup and filters the other
array, so membership tests are faithful to list membership.

```ts
const missingKeysInFirstConfigFile = secondConfigObjectArray.filter(item => !set1.has(item));
const missingKeysInSecondConfigFile = firstConfigObjectArray.filter(item => !set2.has(item));
```
Returned as the pair (missingInFirst, missingInSecond). -/
def compareEnvKeys (firstKeys secondKeys : List String) : List String × List String :=
  (secondKeys.filter (fun item => !(firstKeys.contains item)),
   firstKeys.filter (fun item => !(secondKeys.contains item)))

/-- JavaScript property access `doc[key]` on a parsed config object of
TS type `StringStringOrUndefinedRecord`: `undefined` (here `none`) when
the key is absent, otherwise the stored value (itself possibly
`undefined`). -/
def jsGet {α : Type} (d : List (String × Option α)) (key : String) : Option α :=
  match d.find? (fun kv => kv.1 == key) with
  | some kv => kv.2
  | none => none

/-- Adding one element to a JavaScript `Set` modelled as its insertion-
ordered element list. -/
def setAdd (s : List String) (k : String) : List String :=
  if s.contains k then s else s ++ [k]

/-- `new Set([...Object.keys(d1), ...Object.keys(d2)])` in insertion
order. -/
def allKeysOf {α : Type} (d1 d2 : List (String × Option α)) : List String :=
  (d1.map Prod.fst ++ d2.map Prod.fst).foldl setAdd []

/-- `CompareEnv.getValueDifferences(d1, d2)`: for each key of the union
of both key sets, report `(key, value1, value2)` exactly when both
values are defined and differ.

```ts
allKeys.forEach(key => {
  const value1 = firstConfigObject[key];
  const value2 = secondConfigObject[key];
  if (value1 !== undefined && value2 !== undefined && value1 !== value2) {
    differences[key] = { [first]: value1, [second]: value2 };
  }
});
```
The inner record keyed by the two file names is modelled by the ordered
pair `(value1, value2)`. -/
def getValueDifferences {α : Type} [BEq α]
    (d1 d2 : List (String × Option α)) : List (String × α × α) :=
  (allKeysOf d1 d2).filterMap (fun key =>
    match jsGet d1 key, jsGet d2 key with
    | some value1, some value2 =>
      if value1 != value2 then some (key, value1, value2) else none
    | _, _ => none)

/-- The characters of the last `/`-separated component of a path. -/
def basenameChars (cs : List Char) : List Char :=
  cs.foldl (fun acc c => if c = '/' then [] else acc ++ [c]) []

/-- The suffix of a character list starting at its last `'.'`, if any. -/
def lastDotSuffix : List Char → Option (List Char)
  | [] => none
  | c :: rest =>
    match lastDotSuffix rest with
    | some s => some s
    | none => if c = '.' then some (c :: rest) else none

/-- Node's `path.extname` for ordinary file names: the suffix of the
basename from its last `'.'`, except that a `'.'` at position 0 of the
basename (a dotfile such as `.env` with no further dot) yields `""`. -/
def extname (p : String) : String :=
  match basenameChars p.data with
  | [] => ""
  | _ :: rest =>
    match lastDotSuffix rest with
    | some s => String.mk s
    | none => ""

/-- What the runtime environment would provide for one existing file:
`envParse` is the record `dotenv.parse(content)` would return (the
`dotenv` parser never throws), and `yamlParse` is the value `yaml.load
(content)` would return, or `none` if `yaml.load` would throw a
`YAMLException`. -/
structure RawFile where
  envParse : List (String × String)
  yamlParse : Option JVal

/-- The file system: which paths exist, and the parse oracles of each
existing file.  (`path.resolve` of the CLI arguments is modelled as the
identity: claims quantify over already-resolved paths.) -/
structure FileSys where
  files : String → Option RawFile

/-- The `ConfigOptions` relevant to control flow (`--keys`, `--values`;
`commander` defaults both to `false`). -/
structure Options where
  keys : Bool
  values : Bool

/-- The error classes the program can throw, plus the `YAMLException`
thrown by `js-yaml` (which is not one of the program's own classes).
`fileCompare` is `FileCompareError` ("Cannot compare dissimilar file"),
the spec's `FormatMismatch`. -/
inductive ErrKind where
  | fileNotFound (path : String)
  | unsupportedFileType (ext : String)
  | fileCompare
  | yamlException
deriving Repr, DecidableEq

/-- Observable events of one run: file reads, the console messages of
the emptiness check, the printed comparison results, and the error
report of the `catch` block. -/
inductive Event where
  | fileRead (path : String)
  | logBothEmpty
  | logFileEmpty (file : String)
  | printKeys (missingInFirst missingInSecond : List String)
  | printNoValueDiffs
  | printValueDiffs (diffs : List (String × JVal × JVal))
  | errorKnown (k : ErrKind)
  | errorUnknown (k : ErrKind)
deriving Repr

/-- The `catch` block of `CompareEnv.compare`: the three own error
classes are recognised (`instanceof`) and reported with their message;
anything else — in particular `js-yaml`'s `YAMLException` — falls into
the "An unknown error occurred" branch. -/
def reportEvent : ErrKind → Event
  | .yamlException => .errorUnknown .yamlException
  | e => .errorKnown e

/-- The parsed document of an `.env` file: `dotenv.parse` yields string
values (never `undefined`). -/
def envDocOf (f : RawFile) : List (String × Option JVal) :=
  f.envParse.map (fun kv => (kv.1, some (JVal.scalar kv.2)))

/-- The parsed document of a YAML file: `flattenObj(yaml.load(content))`.
The top-level `for … in` iteration is `entriesOf`; a null, number or
boolean document has no enumerable string-keyed properties and flattens
to the empty record.  (Modelling note: for a document that is a single
top-level *string* scalar, JavaScript's `for … in` wraps the primitive
and enumerates its character indices, which `entriesOf` does not
reproduce; no claim distinguishes such documents.) -/
def yamlDocOf (v : JVal) : List (String × Option JVal) :=
  (flattenE (entriesOf v) "" []).map (fun kv => (kv.1, some kv.2))

/-- `CompareEnv.parseFile` (which begins by calling
`validateAndReturnResolvedFilePath`): existence check, extension check,
then read (recorded as a `fileRead` event) and parse.  The result is
the emitted events paired with either the parsed document or the thrown
error. -/
def parseFileR (fs : FileSys) (path : String) :
    List Event × Except ErrKind (List (String × Option JVal)) :=
  match fs.files path with
  | none => ([], .error (.fileNotFound path))
  | some f =>
    let ext := extname path
    if ext ≠ ".env" ∧ ext ≠ ".yaml" ∧ ext ≠ ".yml" then
      ([], .error (.unsupportedFileType ext))
    else if ext = ".env" then
      ([.fileRead path], .ok (envDocOf f))
    else
      match f.yamlParse with
      | none => ([.fileRead path], .error .yamlException)
      | some v => ([.fileRead path], .ok (yamlDocOf v))

/-- `CompareEnv.checkIfAnyEnvironmentObjectIsEmpty`: it only logs a
message (`isEmpty` is `Object.keys(obj).length === 0`) and returns — it
does not throw and does not stop `compare`. -/
def emptinessEvents (firstFile secondFile : String)
    (d1 d2 : List (String × Option JVal)) : List Event :=
  if d1.isEmpty && d2.isEmpty then [.logBothEmpty]
  else if d1.isEmpty then [.logFileEmpty firstFile]
  else if d2.isEmpty then [.logFileEmpty secondFile]
  else []

/-- `CompareEnv.compare()`: extension comparison
(`checkIfBothFilesAreOfSameType`, which compares the two `path.extname`
strings for strict equality), parse of the first then the second file,
the emptiness log, then one of the two comparison modes selected by the
early-return `if (options.keys) { …; return; } else if (options.values)
{ … }` chain.  Any thrown error is reported by the `catch` block and the
process exits with code 1; otherwise the process terminates with exit
code 0.  The result is the event trace paired with the exit code. -/
def runCompare (fs : FileSys) (firstFile secondFile : String) (opts : Options) :
    List Event × Nat :=
  if extname firstFile ≠ extname secondFile then ([reportEvent .fileCompare], 1)
  else
    match parseFileR fs firstFile with
    | (evs1, .error e) => (evs1 ++ [reportEvent e], 1)
    | (evs1, .ok d1) =>
      match parseFileR fs secondFile with
      | (evs2, .error e) => (evs1 ++ evs2 ++ [reportEvent e], 1)
      | (evs2, .ok d2) =>
        let evs := evs1 ++ evs2 ++ emptinessEvents firstFile secondFile d1 d2
        if opts.keys then
          let r := compareEnvKeys (d1.map Prod.fst) (d2.map Prod.fst)
          (evs ++ [.printKeys r.1 r.2], 0)
        else if opts.values then
          let diffs := getValueDifferences d1 d2
          if diffs.length > 0 then (evs ++ [.printValueDiffs diffs], 0)
          else (evs ++ [.printNoValueDiffs], 0)
        else (evs, 0)

/-- Events produced only by the value-comparison mode. -/
def isValueModeEvent : Event → Bool
  | .printNoValueDiffs => true
  | .printValueDiffs _ => true
  | _ => false

/-- Events produced by either comparison mode. -/
def isCompareEvent : Event → Bool
  | .printKeys _ _ => true
  | .printNoValueDiffs => true
  | .printValueDiffs _ => true
  | _ => false

/-- C1: for key lists `a` and `b` without duplicates, `compareEnvKeys`
returns as `missingInFirst` exactly the keys in `b` and not in `a`, as
`missingInSecond` exactly the keys in `a` and not in `b`, and comparing
a list with itself yields two empty lists. -/
theorem compareEnvKeys_spec (a b : List String) (ha : a.Nodup) (hb : b.Nodup) :
    (∀ k : String,
      (k ∈ (compareEnvKeys a b).1 ↔ k ∈ b ∧ k ∉ a) ∧
      (k ∈ (compareEnvKeys a b).2 ↔ k ∈ a ∧ k ∉ b)) ∧
    compareEnvKeys a a = ([], []) := by
  refine ⟨fun k => ⟨?_, ?_⟩, ?_⟩
  · simp [compareEnvKeys, List.mem_filter]
  · simp [compareEnvKeys, List.mem_filter]
  · simp [compareEnvKeys, List.filter_eq_nil_iff]

theorem compareEnvKeys_spec_witness :
    (["FOO", "BAR"] : List String).Nodup ∧ (["FOO", "BAZ"] : List String).Nodup ∧
    ((∀ k : String,
      (k ∈ (compareEnvKeys ["FOO", "BAR"] ["FOO", "BAZ"]).1 ↔
        k ∈ ["FOO", "BAZ"] ∧ k ∉ ["FOO", "BAR"]) ∧
      (k ∈ (compareEnvKeys ["FOO", "BAR"] ["FOO", "BAZ"]).2 ↔
        k ∈ ["FOO", "BAR"] ∧ k ∉ ["FOO", "BAZ"])) ∧
    compareEnvKeys ["FOO", "BAR"] ["FOO", "BAR"] = ([], [])) :=
  ⟨by decide, by decide,
   compareEnvKeys_spec ["FOO", "BAR"] ["FOO", "BAZ"] (by decide) (by decide)⟩

theorem mem_setAdd (s : List String) (x k : String) :
    k ∈ setAdd s x ↔ k ∈ s ∨ k = x := by
  unfold setAdd
  by_cases hx : x ∈ s
  · rw [if_pos (by simpa using hx)]
    constructor
    · exact Or.inl
    · rintro (h | h)
      · exact h
      · subst h; exact hx
  · rw [if_neg (by simpa using hx)]
    simp

theorem mem_foldl_setAdd (l : List String) :
    ∀ (acc : List String) (k : String),
      k ∈ l.foldl setAdd acc ↔ k ∈ acc ∨ k ∈ l := by
  induction l with
  | nil => intro acc k; simp
  | cons x l ih =>
    intro acc k
    rw [List.foldl_cons, ih, mem_setAdd]
    simp [or_assoc]

theorem mem_allKeysOf {α : Type} (d1 d2 : List (String × Option α)) (k : String) :
    k ∈ allKeysOf d1 d2 ↔ k ∈ d1.map Prod.fst ∨ k ∈ d2.map Prod.fst := by
  unfold allKeysOf
  rw [mem_foldl_setAdd]
  simp

theorem jsGet_some_mem {α : Type} {d : List (String × Option α)} {k : String} {v : α}
    (h : jsGet d k = some v) : k ∈ d.map Prod.fst := by
  unfold jsGet at h
  rcases hf : d.find? (fun kv => kv.1 == k) with _ | kv
  · rw [hf] at h; exact absurd h (by simp)
  · have h1 := List.find?_some hf
    have h2 := List.mem_of_find?_eq_some hf
    simp only [beq_iff_eq] at h1
    subst h1
    exact List.mem_map_of_mem Prod.fst h2

/-- C2: a key appears in the `getValueDifferences` result exactly when
its value is defined in both documents and the two values differ;
comparing a document with itself yields the empty result; swapping the
documents yields the same keys with the reported value pairs flipped. -/
theorem getValueDifferences_spec (d1 d2 : List (String × Option String)) :
    (∀ (k v1 v2 : String),
      (k, v1, v2) ∈ getValueDifferences d1 d2 ↔
        jsGet d1 k = some v1 ∧ jsGet d2 k = some v2 ∧ v1 ≠ v2) ∧
    getValueDifferences d1 d1 = [] ∧
    (∀ (k v1 v2 : String),
      (k, v1, v2) ∈ getValueDifferences d1 d2 ↔
        (k, v2, v1) ∈ getValueDifferences d2 d1) := by
  have hmem : ∀ (e1 e2 : List (String × Option String)) (k v1 v2 : String),
      (k, v1, v2) ∈ getValueDifferences e1 e2 ↔
        jsGet e1 k = some v1 ∧ jsGet e2 k = some v2 ∧ v1 ≠ v2 := by
    intro e1 e2 k v1 v2
    unfold getValueDifferences
    rw [List.mem_filterMap]
    constructor
    · rintro ⟨key, hkey, hf⟩
      rcases h1 : jsGet e1 key with _ | w1 <;> rcases h2 : jsGet e2 key with _ | w2 <;>
        rw [h1, h2] at hf <;> simp at hf
      rcases hf with ⟨hne, hk, hv1, hv2⟩
      subst hk; subst hv1; subst hv2
      exact ⟨h1, h2, hne⟩
    · rintro ⟨h1, h2, hne⟩
      refine ⟨k, ?_, ?_⟩
      · rw [mem_allKeysOf]
        exact Or.inl (jsGet_some_mem h1)
      · rw [h1, h2]
        simp [hne]
  refine ⟨hmem d1 d2, ?_, ?_⟩
  · unfold getValueDifferences
    rw [List.filterMap_eq_nil_iff]
    intro key hkey
    rcases h1 : jsGet d1 key with _ | w1
    · simp
    · simp
  · intro k v1 v2
    rw [hmem d1 d2, hmem d2 d1]
    constructor
    · rintro ⟨h1, h2, hne⟩; exact ⟨h2, h1, hne.symm⟩
    · rintro ⟨h1, h2, hne⟩; exact ⟨h2, h1, hne.symm⟩

theorem parseFileR_shape (fs : FileSys) (p : String) :
    parseFileR fs p = ([], Except.error (.fileNotFound p)) ∨
    parseFileR fs p = ([], Except.error (.unsupportedFileType (extname p))) ∨
    parseFileR fs p = ([Event.fileRead p], Except.error .yamlException) ∨
    ∃ d, parseFileR fs p = ([Event.fileRead p], Except.ok d) := by
  unfold parseFileR
  rcases hfp : fs.files p with _ | f
  · simp
  · by_cases hA : extname p = ".env"
    · simp [hA]
    · by_cases hB : extname p = ".yaml"
      · rcases hy : f.yamlParse with _ | v <;> simp [hA, hB, hy]
      · by_cases hC : extname p = ".yml"
        · rcases hy : f.yamlParse with _ | v <;> simp [hA, hB, hC, hy]
        · simp [hA, hB, hC]

theorem parseFileR_events (fs : FileSys) (p : String) :
    ∀ e ∈ (parseFileR fs p).1, e = Event.fileRead p := by
  intro e he
  rcases parseFileR_shape fs p with h | h | h | ⟨d, h⟩ <;> rw [h] at he <;> simp at he <;>
    exact he

theorem parseFileR_error_kinds {fs : FileSys} {p : String} {evs : List Event} {e : ErrKind}
    (h : parseFileR fs p = (evs, .error e)) :
    e = .fileNotFound p ∨ e = .unsupportedFileType (extname p) ∨ e = .yamlException := by
  rcases parseFileR_shape fs p with h' | h' | h' | ⟨d, h'⟩ <;> rw [h] at h' <;> simp at h'
  · exact Or.inl h'.2
  · exact Or.inr (Or.inl h'.2)
  · exact Or.inr (Or.inr h'.2)

theorem parseFileR_ok_events {fs : FileSys} {p : String} {evs : List Event}
    {d : List (String × Option JVal)} (h : parseFileR fs p = (evs, .ok d)) :
    evs = [Event.fileRead p] := by
  rcases parseFileR_shape fs p with h' | h' | h' | ⟨d', h'⟩ <;> rw [h] at h' <;> simp at h'
  exact h'.1

theorem emptinessEvents_shape (f1 f2 : String) (d1 d2 : List (String × Option JVal)) :
    ∀ e ∈ emptinessEvents f1 f2 d1 d2,
      e = Event.logBothEmpty ∨ e = Event.logFileEmpty f1 ∨ e = Event.logFileEmpty f2 := by
  intro e he
  unfold emptinessEvents at he
  split at he
  · simp at he; exact Or.inl he
  · split at he
    · simp at he; exact Or.inr (Or.inl he)
    · split at he
      · simp at he; exact Or.inr (Or.inr he)
      · simp at he

theorem reportEvent_shape (e : ErrKind) :
    reportEvent e = Event.errorKnown e ∨ reportEvent e = Event.errorUnknown e := by
  cases e <;> simp [reportEvent]

/-- C3 counterexample: the claim says comparing a `.yaml` file with a
`.yml` file does not fail with `FormatMismatch`, but the code compares
the raw `path.extname` strings, so it throws `FileCompareError` before
even consulting the file system. -/
theorem yamlVsYml_fileCompare :
    runCompare ⟨fun _ => none⟩ "a.yaml" "b.yml" ⟨true, false⟩ =
      ([Event.errorKnown .fileCompare], 1) := rfl

/-- C3 (amended): the run fails with `FileCompareError` (the spec's
`FormatMismatch`) exactly when the two paths' `path.extname` strings
differ — in particular `.yaml` vs `.yml` fails, and the failure is
independent of the file system and the options. -/
theorem runCompare_fileCompare_iff (fs : FileSys) (f1 f2 : String) (opts : Options) :
    runCompare fs f1 f2 opts = ([Event.errorKnown .fileCompare], 1) ↔
      extname f1 ≠ extname f2 := by
  constructor
  · intro h
    by_contra heq
    rw [runCompare, if_neg (by simp [heq])] at h
    rcases parseFileR_shape fs f1 with h1 | h1 | h1 | ⟨d1, h1⟩ <;> rw [h1] at h
    · simp [reportEvent] at h
    · simp [reportEvent] at h
    · simp [reportEvent] at h
    · rcases parseFileR_shape fs f2 with h2 | h2 | h2 | ⟨d2, h2⟩ <;> rw [h2] at h
      · simp [reportEvent] at h
      · simp [reportEvent] at h
      · simp [reportEvent] at h
      · dsimp only at h
        split at h
        · simp at h
        · split at h
          · split at h <;> simp at h
          · simp at h
  · intro hne
    rw [runCompare, if_pos hne]
    rfl

/-- C4 (code bug): with the first parsed document empty and `--keys`
set, the run logs "file a.env is empty." but then still computes and
prints the key comparison — `checkIfAnyEnvironmentObjectIsEmpty` only
logs and returns, it does not stop `compare`, contradicting the spec
and the code's own comment "breaks operation if any of the config file
objects are empty." -/
theorem emptyFirstFile_stillCompares :
    runCompare
      ⟨fun p =>
        if p = "a.env" then some ⟨[], none⟩
        else if p = "b.env" then some ⟨[("FOO", "1")], none⟩ else none⟩
      "a.env" "b.env" ⟨true, false⟩ =
      ([Event.fileRead "a.env", Event.fileRead "b.env",
        Event.logFileEmpty "a.env", Event.printKeys ["FOO"] []], 0) := rfl

/-- C5 counterexample: the claim says that when the second path does
not exist the first file is not read or parsed; but `compare` parses
the first file completely before validating the second, so the trace
contains the read of `a.env` before the `FileNotFoundError` for
`b.env`. -/
theorem secondMissing_firstStillRead :
    runCompare
      ⟨fun p => if p = "a.env" then some ⟨[("FOO", "1")], none⟩ else none⟩
      "a.env" "b.env" ⟨true, false⟩ =
      ([Event.fileRead "a.env", Event.errorKnown (.fileNotFound "b.env")], 1) := rfl

/-- C5 (amended): a missing path makes the run fail with
`FileNotFoundError`, but each path is validated immediately before its
own parse: if the first path is missing nothing is read, while if only
the second path is missing the failure comes after the first file has
already been read and parsed. -/
theorem runCompare_fileNotFound_order (fs : FileSys) (f1 f2 : String) (opts : Options)
    (d1 : List (String × Option JVal)) (heq : extname f1 = extname f2) :
    (fs.files f1 = none →
      runCompare fs f1 f2 opts = ([Event.errorKnown (.fileNotFound f1)], 1)) ∧
    (parseFileR fs f1 = ([Event.fileRead f1], .ok d1) → fs.files f2 = none →
      runCompare fs f1 f2 opts =
        ([Event.fileRead f1, Event.errorKnown (.fileNotFound f2)], 1)) := by
  constructor
  · intro h1
    have hp : parseFileR fs f1 = ([], .error (.fileNotFound f1)) := by
      unfold parseFileR
      rw [h1]
    rw [runCompare, if_neg (by simp [heq]), hp]
    rfl
  · intro hok h2
    have hp2 : parseFileR fs f2 = ([], .error (.fileNotFound f2)) := by
      unfold parseFileR
      rw [h2]
    rw [runCompare, if_neg (by simp [heq]), hok, hp2]
    rfl

theorem runCompare_fileNotFound_order_witness :
    extname "a.env" = extname "b.env" ∧
    ((FileSys.mk (fun p => if p = "a.env" then some ⟨[("FOO", "1")], none⟩ else none)).files
        "a.env" = none →
      runCompare ⟨fun p => if p = "a.env" then some ⟨[("FOO", "1")], none⟩ else none⟩
        "a.env" "b.env" ⟨true, false⟩ = ([Event.errorKnown (.fileNotFound "a.env")], 1)) ∧
    (parseFileR ⟨fun p => if p = "a.env" then some ⟨[("FOO", "1")], none⟩ else none⟩ "a.env" =
        ([Event.fileRead "a.env"], .ok [("FOO", some (JVal.scalar "1"))]) →
      (FileSys.mk (fun p => if p = "a.env" then some ⟨[("FOO", "1")], none⟩ else none)).files
        "b.env" = none →
      runCompare ⟨fun p => if p = "a.env" then some ⟨[("FOO", "1")], none⟩ else none⟩
        "a.env" "b.env" ⟨true, false⟩ =
        ([Event.fileRead "a.env", Event.errorKnown (.fileNotFound "b.env")], 1)) :=
  ⟨rfl, runCompare_fileNotFound_order _ "a.env" "b.env" ⟨true, false⟩
    [("FOO", some (JVal.scalar "1"))] rfl⟩

/-- C8 counterexample: a YAML syntax error (`yaml.load` throwing) is
not reported as a distinct `ParseError`: the catch block does not
recognise `YAMLException`, so the run reports "An unknown error
occurred". -/
theorem yamlParseFailure_reportedUnknown :
    runCompare
      ⟨fun p =>
        if p = "a.yaml" then some ⟨[], none⟩
        else if p = "b.yaml" then some ⟨[], some (.obj [])⟩ else none⟩
      "a.yaml" "b.yaml" ⟨true, false⟩ =
      ([Event.fileRead "a.yaml", Event.errorUnknown .yamlException], 1) := rfl

/-- C8 (amended): when the first file is a `.yaml`/`.yml` file whose
text `yaml.load` cannot parse, the run exits with code 1, but the error
is the `YAMLException` reported through the generic unknown-error
branch — the program has no distinct `ParseError` kind (and
`dotenv.parse` never throws). -/
theorem runCompare_yamlError_unknown (fs : FileSys) (f1 f2 : String) (opts : Options)
    (f : RawFile) (heq : extname f1 = extname f2)
    (hfile : fs.files f1 = some f)
    (hext : extname f1 = ".yaml" ∨ extname f1 = ".yml")
    (hbad : f.yamlParse = none) :
    runCompare fs f1 f2 opts =
      ([Event.fileRead f1, Event.errorUnknown .yamlException], 1) := by
  have hp : parseFileR fs f1 = ([Event.fileRead f1], .error .yamlException) := by
    unfold parseFileR
    rw [hfile]
    rcases hext with h | h <;> rw [h] <;> simp [hbad]
  rw [runCompare, if_neg (by simp [heq]), hp]
  rfl

theorem runCompare_yamlError_unknown_witness :
    extname "a.yaml" = extname "b.yaml" ∧
    (FileSys.mk (fun p => if p = "a.yaml" then some ⟨[], none⟩ else none)).files "a.yaml" =
      some ⟨[], none⟩ ∧
    (extname "a.yaml" = ".yaml" ∨ extname "a.yaml" = ".yml") ∧
    (RawFile.mk [] none).yamlParse = none ∧
    runCompare ⟨fun p => if p = "a.yaml" then some ⟨[], none⟩ else none⟩
      "a.yaml" "b.yaml" ⟨false, true⟩ =
      ([Event.fileRead "a.yaml", Event.errorUnknown .yamlException], 1) :=
  ⟨rfl, rfl, Or.inl rfl, rfl,
   runCompare_yamlError_unknown _ "a.yaml" "b.yaml" ⟨false, true⟩ ⟨[], none⟩ rfl rfl
     (Or.inl rfl) rfl⟩

/-- C9: when `--keys` is set (in particular when `--values` is set as
well), the value-comparison mode never runs — no value-mode output ever
appears in the trace — and whenever the run succeeds the key comparison
is the one that was printed. -/
theorem runCompare_keys_precedence (fs : FileSys) (f1 f2 : String) (opts : Options)
    (hk : opts.keys = true) (hv : opts.values = true) :
    ((runCompare fs f1 f2 opts).1.all (fun e => !isValueModeEvent e) = true) ∧
    ((runCompare fs f1 f2 opts).2 = 0 →
      ∃ mf ms, Event.printKeys mf ms ∈ (runCompare fs f1 f2 opts).1) := by
  rw [runCompare]
  by_cases hne : extname f1 ≠ extname f2
  · rw [if_pos hne]
    exact ⟨rfl, fun h0 => by simp at h0⟩
  · rw [if_neg hne]
    rcases parseFileR_shape fs f1 with h1 | h1 | h1 | ⟨d1, h1⟩ <;> rw [h1]
    · exact ⟨rfl, fun h0 => by simp at h0⟩
    · exact ⟨rfl, fun h0 => by simp at h0⟩
    · exact ⟨rfl, fun h0 => by simp at h0⟩
    · rcases parseFileR_shape fs f2 with h2 | h2 | h2 | ⟨d2, h2⟩ <;> rw [h2]
      · exact ⟨rfl, fun h0 => by simp at h0⟩
      · exact ⟨rfl, fun h0 => by simp at h0⟩
      · exact ⟨rfl, fun h0 => by simp at h0⟩
      · dsimp only
        rw [hk, if_pos rfl]
        constructor
        · rw [List.all_eq_true]
          intro e' he'
          rcases List.mem_append.mp he' with h | h
          · rcases List.mem_append.mp h with h' | h'
            · rcases List.mem_append.mp h' with h'' | h''
              · simp at h''
                subst h''
                rfl
              · simp at h''
                subst h''
                rfl
            · rcases emptinessEvents_shape f1 f2 d1 d2 e' h' with rfl | rfl | rfl <;> rfl
          · simp at h
            subst h
            rfl
        · intro _
          refine ⟨(compareEnvKeys (d1.map Prod.fst) (d2.map Prod.fst)).1,
                  (compareEnvKeys (d1.map Prod.fst) (d2.map Prod.fst)).2, ?_⟩
          exact List.mem_append.mpr (Or.inr (by simp))

theorem runCompare_keys_precedence_witness :
    (Options.mk true true).keys = true ∧ (Options.mk true true).values = true ∧
    (((runCompare ⟨fun _ => none⟩ "a.env" "b.env" ⟨true, true⟩).1.all
        (fun e => !isValueModeEvent e) = true) ∧
      ((runCompare ⟨fun _ => none⟩ "a.env" "b.env" ⟨true, true⟩).2 = 0 →
        ∃ mf ms,
          Event.printKeys mf ms ∈ (runCompare ⟨fun _ => none⟩ "a.env" "b.env" ⟨true, true⟩).1)) :=
  ⟨rfl, rfl, runCompare_keys_precedence ⟨fun _ => none⟩ "a.env" "b.env" ⟨true, true⟩ rfl rfl⟩

/-- C10: with neither `--keys` nor `--values` set, a run that validates
and parses both (non-empty) files performs no comparison at all: the
trace consists of the two file reads only — no key-difference or
value-difference output — and the process exits successfully. -/
theorem runCompare_no_flags (fs : FileSys) (f1 f2 : String) (opts : Options)
    (d1 d2 : List (String × Option JVal))
    (hk : opts.keys = false) (hv : opts.values = false)
    (heq : extname f1 = extname f2)
    (h1 : parseFileR fs f1 = ([Event.fileRead f1], .ok d1))
    (h2 : parseFileR fs f2 = ([Event.fileRead f2], .ok d2))
    (hne1 : d1 ≠ []) (hne2 : d2 ≠ []) :
    runCompare fs f1 f2 opts = ([Event.fileRead f1, Event.fileRead f2], 0) := by
  rw [runCompare, if_neg (by simp [heq]), h1, h2]
  dsimp only
  rw [hk, hv]
  have he : emptinessEvents f1 f2 d1 d2 = [] := by
    unfold emptinessEvents
    rw [if_neg, if_neg, if_neg]
    · simp [hne2]
    · simp [hne1]
    · simp [hne1]
  rw [he]
  rfl

theorem runCompare_no_flags_witness :
    (Options.mk false false).keys = false ∧ (Options.mk false false).values = false ∧
    extname "a.env" = extname "b.env" ∧
    parseFileR
        ⟨fun p =>
          if p = "a.env" then some ⟨[("FOO", "1")], none⟩
          else if p = "b.env" then some ⟨[("BAR", "2")], none⟩ else none⟩ "a.env" =
      ([Event.fileRead "a.env"], .ok [("FOO", some (JVal.scalar "1"))]) ∧
    parseFileR
        ⟨fun p =>
          if p = "a.env" then some ⟨[("FOO", "1")], none⟩
          else if p = "b.env" then some ⟨[("BAR", "2")], none⟩ else none⟩ "b.env" =
      ([Event.fileRead "b.env"], .ok [("BAR", some (JVal.scalar "2"))]) ∧
    runCompare
        ⟨fun p =>
          if p = "a.env" then some ⟨[("FOO", "1")], none⟩
          else if p = "b.env" then some ⟨[("BAR", "2")], none⟩ else none⟩
        "a.env" "b.env" ⟨false, false⟩ =
      ([Event.fileRead "a.env", Event.fileRead "b.env"], 0) :=
  ⟨rfl, rfl, rfl, rfl, rfl,
   runCompare_no_flags _ "a.env" "b.env" ⟨false, false⟩
     [("FOO", some (JVal.scalar "1"))] [("BAR", some (JVal.scalar "2"))]
     rfl rfl rfl rfl rfl (by simp) (by simp)⟩

theorem toString_nat_zero : toString (0 : Nat) = "0" := rfl

theorem toString_nat_one : toString (1 : Nat) = "1" := rfl

/-- C6 counterexample: flattening `{key: ["a", "b"]}` produces the
index-based flattened keys `key.0` and `key.1`, and flattening the
array-of-nested-maps document `{key: [{a: "x"}]}` produces the
index-based key `key.0.a`: JavaScript's `typeof [] === 'object'` test
is true, so `flattenObj` recurses into arrays (also into their map
elements) and `for … in` enumerates the array indices. -/
theorem arrayFlattening_producesIndexKeys :
    flattenE [("key", .arr [.scalar "a", .scalar "b"])] "" [] =
      [("key.0", .scalar "a"), ("key.1", .scalar "b")] ∧
    flattenE [("key", .arr [.obj [("a", .scalar "x")]])] "" [] =
      [("key.0.a", .scalar "x")] := by
  constructor
  · simp [flattenE, entriesOf, enumFrom, assignAll, assignEntry, isContainer,
      toString_nat_zero, toString_nat_one]
  · simp [flattenE, entriesOf, enumFrom, assignAll, assignEntry, isContainer,
      toString_nat_zero, toString_nat_one]

/-- C7 counterexample: in the document `{a: {b: "x"}, "a.b": "y"}` the
leaf `"x"` (at path `a`,`b`) and the leaf `"y"` (at the top-level key
`a.b`) collide on the single flattened key `a.b`; the later assignment
overwrites the earlier one, so the source leaf `"x"` appears under no
flattened key at all — flattening is neither total nor injective on
leaves for such documents. -/
theorem flatten_leafCollision :
    flattenE [("a", .obj [("b", .scalar "x")]), ("a.b", .scalar "y")] "" [] =
      [("a.b", JVal.scalar "y")] ∧
    (["a", "b"], JVal.scalar "x") ∈
      leavesE [("a", .obj [("b", .scalar "x")]), ("a.b", .scalar "y")] := by
  constructor
  · simp [flattenE, entriesOf, assignAll, assignEntry, isContainer]
  · simp [leavesE, entriesOf, isContainer]

theorem jsize_pos (v : JVal) : 1 ≤ jsize v := by
  cases v <;> simp [jsize]

theorem jsizeE_cons (k : String) (v : JVal) (es : List (String × JVal)) :
    jsizeE ((k, v) :: es) = jsize v + jsizeE es := by
  simp [jsizeE]

theorem jsizeE_enumFrom (vs : List JVal) : ∀ i, jsizeE (enumFrom i vs) = jsizeL vs := by
  induction vs with
  | nil => intro i; simp [enumFrom, jsizeE, jsizeL]
  | cons v vs ih => intro i; simp [enumFrom, jsizeE, jsizeL, ih]

theorem jsizeE_entriesOf_lt {v : JVal} (h : isContainer v = true) :
    jsizeE (entriesOf v) < jsize v := by
  cases v with
  | obj es => simp [entriesOf, jsize]
  | arr vs => simp [entriesOf, jsize, jsizeE_enumFrom]
  | scalar s => simp [isContainer] at h
  | jnull => simp [isContainer] at h

theorem jsizeE_nil_of_le_zero {es : List (String × JVal)} (h : jsizeE es ≤ 0) : es = [] := by
  cases es with
  | nil => rfl
  | cons kv rest =>
    rcases kv with ⟨k, v⟩
    rw [jsizeE_cons] at h
    have := jsize_pos v
    omega

theorem goodE_cons {k : String} {v : JVal} {rest : List (String × JVal)} :
    goodE ((k, v) :: rest) = true ↔
      goodSeg k = true ∧ k ∉ rest.map Prod.fst ∧
      (isContainer v = true → goodE (entriesOf v) = true) ∧ goodE rest = true := by
  simp only [goodE]
  by_cases h : isContainer v = true
  · simp [h]
    tauto
  · simp [h]
    tauto

theorem leavesE_path_shape (es : List (String × JVal)) :
    ∀ pu ∈ leavesE es, ∃ k s, pu.1 = k :: s ∧ k ∈ es.map Prod.fst := by
  induction es with
  | nil => intro pu h; simp [leavesE] at h
  | cons kv rest ih =>
    rcases kv with ⟨k, v⟩
    intro pu h
    simp only [leavesE] at h
    rcases List.mem_append.mp h with h' | h'
    · by_cases hc : isContainer v = true
      · rw [dif_pos hc] at h'
        rcases List.mem_map.mp h' with ⟨qu, hq, hEq⟩
        refine ⟨k, qu.1, ?_, by simp⟩
        rw [← hEq]
      · rw [dif_neg hc] at h'
        simp at h'
        subst h'
        exact ⟨k, [], rfl, by simp⟩
    · rcases ih pu h' with ⟨k', s, hs, hk⟩
      exact ⟨k', s, hs, by simp [hk]⟩

theorem leavesE_segs_good :
    ∀ (n : Nat) (es : List (String × JVal)), jsizeE es ≤ n → goodE es = true →
      ∀ pu ∈ leavesE es, ∀ s ∈ pu.1, goodSeg s = true := by
  intro n
  induction n with
  | zero =>
    intro es hsz hg pu hpu
    rw [jsizeE_nil_of_le_zero hsz] at hpu
    simp [leavesE] at hpu
  | succ n ih =>
    intro es hsz hg pu hpu s hs
    rcases es with _ | ⟨⟨k, v⟩, rest⟩
    · simp [leavesE] at hpu
    · rcases goodE_cons.mp hg with ⟨hk, hknot, hcont, hrest⟩
      rw [jsizeE_cons] at hsz
      simp only [leavesE] at hpu
      rcases List.mem_append.mp hpu with h' | h'
      · by_cases hc : isContainer v = true
        · rw [dif_pos hc] at h'
          rcases List.mem_map.mp h' with ⟨qu, hq, hEq⟩
          rw [← hEq] at hs
          rcases List.mem_cons.mp hs with rfl | hs'
          · exact hk
          · have hsub : jsizeE (entriesOf v) ≤ n := by
              have := jsizeE_entriesOf_lt hc
              omega
            exact ih (entriesOf v) hsub (hcont hc) qu hq s hs'
        · rw [dif_neg hc] at h'
          simp at h'
          subst h'
          simp at hs
          subst hs
          exact hk
      · have hrest_sz : jsizeE rest ≤ n := by
          have := jsize_pos v
          omega
        exact ih rest hrest_sz hrest pu h' s hs

theorem leavesE_paths_nodup :
    ∀ (n : Nat) (es : List (String × JVal)), jsizeE es ≤ n → goodE es = true →
      ((leavesE es).map Prod.fst).Nodup := by
  intro n
  induction n with
  | zero =>
    intro es hsz hg
    rw [jsizeE_nil_of_le_zero hsz]
    simp [leavesE]
  | succ n ih =>
    intro es hsz hg
    rcases es with _ | ⟨⟨k, v⟩, rest⟩
    · simp [leavesE]
    · rcases goodE_cons.mp hg with ⟨hk, hknot, hcont, hrest⟩
      rw [jsizeE_cons] at hsz
      simp only [leavesE]
      rw [List.map_append]
      have hrest_sz : jsizeE rest ≤ n := by
        have := jsize_pos v
        omega
      refine List.Nodup.append ?_ (ih rest hrest_sz hrest) ?_
      · by_cases hc : isContainer v = true
        · rw [dif_pos hc, List.map_map]
          have hmm : (Prod.fst ∘ fun pu : List String × JVal => (k :: pu.1, pu.2)) =
              (fun p => k :: p) ∘ Prod.fst := rfl
          rw [hmm, ← List.map_map]
          have hsub : jsizeE (entriesOf v) ≤ n := by
            have := jsizeE_entriesOf_lt hc
            omega
          exact (ih (entriesOf v) hsub (hcont hc)).map List.cons_injective
        · rw [dif_neg hc]
          simp
      · intro p hp1 hp2
        rcases List.mem_map.mp hp2 with ⟨qu, hqu, hq⟩
        rcases leavesE_path_shape rest qu hqu with ⟨k', s', hs', hk'⟩
        have hpk : ∃ t, p = k :: t := by
          by_cases hc : isContainer v = true
          · rw [dif_pos hc, List.map_map] at hp1
            rcases List.mem_map.mp hp1 with ⟨ru, hru, hr⟩
            exact ⟨ru.1, hr ▸ rfl⟩
          · rw [dif_neg hc] at hp1
            simp at hp1
            exact ⟨[], by rw [hp1]⟩
        rcases hpk with ⟨t, hpt⟩
        have hpp : p = k' :: s' := by rw [← hq, hs']
        rw [hpt] at hpp
        have hkk : k = k' := by
          have := List.cons.injEq k t k' s' ▸ hpp
          exact (List.cons.inj hpp).1
        exact hknot (hkk ▸ hk')

theorem goodSeg_iff {k : String} : goodSeg k = true ↔ k ≠ "" ∧ '.' ∉ k.data := by
  simp [goodSeg]

theorem dot_data : ("." : String).data = ['.'] := rfl

theorem dotfree_append_inj :
    ∀ (l1 l2 r1 r2 : List Char), (∀ c ∈ l1, c ≠ '.') → (∀ c ∈ l2, c ≠ '.') →
      l1 ++ '.' :: r1 = l2 ++ '.' :: r2 → l1 = l2 ∧ r1 = r2 := by
  intro l1
  induction l1 with
  | nil =>
    intro l2 r1 r2 h1 h2 heq
    rcases l2 with _ | ⟨c, l2'⟩
    · simp at heq
      exact ⟨rfl, heq⟩
    · simp at heq
      exact absurd heq.1.symm (h2 c (by simp))
  | cons c l1' ih =>
    intro l2 r1 r2 h1 h2 heq
    rcases l2 with _ | ⟨c2, l2'⟩
    · simp at heq
      exact absurd heq.1 (h1 c (by simp))
    · simp at heq
      rcases heq with ⟨hc, ht⟩
      rcases ih l2' r1 r2 (fun x hx => h1 x (by simp [hx]))
        (fun x hx => h2 x (by simp [hx])) ht with ⟨he1, he2⟩
      exact ⟨by rw [hc, he1], he2⟩

theorem joinPath_single (k : String) : joinPath [k] = k := rfl

theorem joinPath_cons_cons (k k' : String) (ks : List String) :
    joinPath (k :: k' :: ks) = k ++ "." ++ joinPath (k' :: ks) := by
  simp [joinPath]

theorem joinPath_data_cons (k k' : String) (ks : List String) :
    (joinPath (k :: k' :: ks)).data = k.data ++ '.' :: (joinPath (k' :: ks)).data := by
  rw [joinPath_cons_cons]
  simp [String.data_append, dot_data]

theorem joinPath_inj :
    ∀ (p1 p2 : List String), (∀ s ∈ p1, goodSeg s = true) → (∀ s ∈ p2, goodSeg s = true) →
      p1 ≠ [] → p2 ≠ [] → joinPath p1 = joinPath p2 → p1 = p2 := by
  intro p1
  induction p1 with
  | nil =>
    intro p2 h1 h2 hn1 hn2 heq
    exact absurd rfl hn1
  | cons k1 t1 ih =>
    intro p2 h1 h2 hn1 hn2 heq
    rcases p2 with _ | ⟨k2, t2⟩
    · exact absurd rfl hn2
    · rcases t1 with _ | ⟨x1, xs1⟩ <;> rcases t2 with _ | ⟨x2, xs2⟩
      · rw [joinPath_single, joinPath_single] at heq
        rw [heq]
      · have hd := congrArg String.data heq
        rw [joinPath_single, joinPath_data_cons] at hd
        have hdot : '.' ∈ k1.data := by
          rw [hd]
          simp
        exact absurd hdot (goodSeg_iff.mp (h1 k1 (by simp))).2
      · have hd := congrArg String.data heq
        rw [joinPath_single, joinPath_data_cons] at hd
        have hdot : '.' ∈ k2.data := by
          rw [← hd]
          simp
        exact absurd hdot (goodSeg_iff.mp (h2 k2 (by simp))).2
      · have hd := congrArg String.data heq
        rw [joinPath_data_cons, joinPath_data_cons] at hd
        have hdf1 : ∀ c ∈ k1.data, c ≠ '.' := by
          intro c hc hcc
          exact (goodSeg_iff.mp (h1 k1 (by simp))).2 (hcc ▸ hc)
        have hdf2 : ∀ c ∈ k2.data, c ≠ '.' := by
          intro c hc hcc
          exact (goodSeg_iff.mp (h2 k2 (by simp))).2 (hcc ▸ hc)
        rcases dotfree_append_inj _ _ _ _ hdf1 hdf2 hd with ⟨hk, hj⟩
        have hk' : k1 = k2 := String.ext hk
        have hjj : joinPath (x1 :: xs1) = joinPath (x2 :: xs2) := String.ext hj
        have ht := ih (x2 :: xs2) (fun s hs => h1 s (List.mem_cons_of_mem _ hs))
          (fun s hs => h2 s (List.mem_cons_of_mem _ hs)) (by simp) (by simp) hjj
        rw [hk', ht]

theorem string_dot_append_ne_empty (p q : String) : p ++ "." ++ q ≠ "" := by
  intro h
  have hd := congrArg String.data h
  simp [String.data_append, dot_data] at hd

theorem keyUnder_single (p k : String) :
    keyUnder p [k] = if p = "" then k else p ++ "." ++ k := rfl

theorem keyUnder_shift (p k : String) (path : List String)
    (hk : k ≠ "") (hpath : path ≠ []) :
    keyUnder p (k :: path) = keyUnder (if p = "" then k else p ++ "." ++ k) path := by
  rcases path with _ | ⟨x, xs⟩
  · exact absurd rfl hpath
  · by_cases hp : p = ""
    · subst hp
      simp [keyUnder, hk, joinPath_cons_cons]
    · have hne : p ++ ("." ++ k) ≠ "" := by
        intro hcontra
        have hd := congrArg String.data hcontra
        simp [String.data_append, dot_data] at hd
      simp [keyUnder, hp, hne, joinPath_cons_cons, String.append_assoc]

theorem mleaves_nil (p : String) : mleaves [] p = [] := by
  simp [mleaves, leavesE]

theorem mleaves_cons_container (k : String) (v : JVal) (rest : List (String × JVal))
    (p : String) (hk : k ≠ "") (hc : isContainer v = true) :
    mleaves ((k, v) :: rest) p =
      mleaves (entriesOf v) (if p = "" then k else p ++ "." ++ k) ++ mleaves rest p := by
  unfold mleaves
  simp only [leavesE, dif_pos hc]
  rw [List.map_append, List.map_map]
  congr 1
  apply List.map_congr_left
  intro pu hpu
  rcases leavesE_path_shape (entriesOf v) pu hpu with ⟨k', s', hs', -⟩
  have hpne : pu.1 ≠ [] := by rw [hs']; simp
  simp only [Function.comp_apply]
  rw [keyUnder_shift p k pu.1 hk hpne]

theorem mleaves_cons_leaf (k : String) (v : JVal) (rest : List (String × JVal))
    (p : String) (hc : ¬ isContainer v = true) :
    mleaves ((k, v) :: rest) p =
      ((if p = "" then k else p ++ "." ++ k), v) :: mleaves rest p := by
  unfold mleaves
  simp only [leavesE, dif_neg hc]
  simp [keyUnder_single]

theorem assignEntry_append {l : List (String × JVal)} {k : String} {v : JVal}
    (h : k ∉ l.map Prod.fst) : assignEntry l k v = l ++ [(k, v)] := by
  have hany : ¬ l.any (fun p => p.1 == k) = true := by
    simp only [List.any_eq_true, beq_iff_eq]
    rintro ⟨p, hp, rfl⟩
    exact h (List.mem_map_of_mem Prod.fst hp)
  unfold assignEntry
  rw [if_neg hany]

theorem assignAll_append :
    ∀ (m l : List (String × JVal)), (m.map Prod.fst).Nodup →
      (∀ k ∈ m.map Prod.fst, k ∉ l.map Prod.fst) → assignAll l m = l ++ m := by
  intro m
  induction m with
  | nil => intro l _ _; simp [assignAll]
  | cons kv m ih =>
    intro l hnd hdisj
    rcases kv with ⟨k, v⟩
    have hstep : assignAll l ((k, v) :: m) = assignAll (assignEntry l k v) m := rfl
    rw [hstep, assignEntry_append (hdisj k (by simp))]
    rw [List.map_cons] at hnd
    rcases List.nodup_cons.mp hnd with ⟨hknotm, hnd'⟩
    have hdisj' : ∀ k' ∈ m.map Prod.fst, k' ∉ (l ++ [(k, v)]).map Prod.fst := by
      intro k' hk' hmem
      rw [List.map_append] at hmem
      rcases List.mem_append.mp hmem with h | h
      · exact hdisj k' (by simp [hk']) h
      · simp at h
        exact hknotm (h ▸ hk')
    rw [ih (l ++ [(k, v)]) hnd' hdisj']
    simp

theorem flattenE_mleaves :
    ∀ (n : Nat) (es : List (String × JVal)), jsizeE es ≤ n →
      ∀ (p : String) (r : List (String × JVal)), goodE es = true →
        ((mleaves es p).map Prod.fst).Nodup →
        (∀ k ∈ (mleaves es p).map Prod.fst, k ∉ r.map Prod.fst) →
        flattenE es p r = r ++ mleaves es p := by
  intro n
  induction n with
  | zero =>
    intro es hsz p r hg hnd hdisj
    rw [jsizeE_nil_of_le_zero hsz]
    simp [flattenE, mleaves_nil]
  | succ n ih =>
    intro es hsz p r hg hnd hdisj
    rcases es with _ | ⟨⟨k, v⟩, rest⟩
    · simp [flattenE, mleaves_nil]
    · rcases goodE_cons.mp hg with ⟨hkg, hknot, hcont, hrest⟩
      rw [jsizeE_cons] at hsz
      have hrest_sz : jsizeE rest ≤ n := by
        have := jsize_pos v
        omega
      have hkne : k ≠ "" := (goodSeg_iff.mp hkg).1
      by_cases hc : isContainer v = true
      · have hdec := mleaves_cons_container k v rest p hkne hc
        rw [hdec] at hnd hdisj
        rw [List.map_append] at hnd
        rcases List.nodup_append.mp hnd with ⟨hnd1, hnd2, hdisj12⟩
        have hsub_sz : jsizeE (entriesOf v) ≤ n := by
          have := jsizeE_entriesOf_lt hc
          omega
        have hsub : flattenE (entriesOf v) (if p = "" then k else p ++ "." ++ k) [] =
            mleaves (entriesOf v) (if p = "" then k else p ++ "." ++ k) := by
          have hx := ih (entriesOf v) hsub_sz (if p = "" then k else p ++ "." ++ k) []
            (hcont hc) hnd1 (by simp)
          simpa using hx
        have hassign : assignAll r (mleaves (entriesOf v) (if p = "" then k else p ++ "." ++ k)) =
            r ++ mleaves (entriesOf v) (if p = "" then k else p ++ "." ++ k) := by
          apply assignAll_append _ _ hnd1
          intro k' hk'
          apply hdisj k'
          rw [List.map_append]
          exact List.mem_append.mpr (Or.inl hk')
        have hdisj2 : ∀ k' ∈ (mleaves rest p).map Prod.fst,
            k' ∉ (r ++ mleaves (entriesOf v) (if p = "" then k else p ++ "." ++ k)).map
              Prod.fst := by
          intro k' hk' hmem
          rw [List.map_append] at hmem
          rcases List.mem_append.mp hmem with h | h
          · exact hdisj k' (by rw [List.map_append]; exact List.mem_append.mpr (Or.inr hk')) h
          · exact hdisj12 h hk'
        have hr := ih rest hrest_sz p
          (r ++ mleaves (entriesOf v) (if p = "" then k else p ++ "." ++ k)) hrest hnd2 hdisj2
        simp only [flattenE]
        rw [dif_pos hc, hsub, hassign, hr, hdec]
        simp
      · have hdec := mleaves_cons_leaf k v rest p hc
        rw [hdec] at hnd hdisj
        rw [List.map_cons] at hnd
        rcases List.nodup_cons.mp hnd with ⟨hknotr, hnd2⟩
        have hnkr : (if p = "" then k else p ++ "." ++ k) ∉ r.map Prod.fst :=
          hdisj _ (by simp)
        have hdisj2 : ∀ k' ∈ (mleaves rest p).map Prod.fst,
            k' ∉ (r ++ [((if p = "" then k else p ++ "." ++ k), v)]).map Prod.fst := by
          intro k' hk' hmem
          rw [List.map_append] at hmem
          rcases List.mem_append.mp hmem with h | h
          · exact hdisj k' (by simp [hk']) h
          · simp at h
            exact hknotr (h ▸ hk')
        have hr := ih rest hrest_sz p
          (r ++ [((if p = "" then k else p ++ "." ++ k), v)]) hrest hnd2 hdisj2
        simp only [flattenE]
        rw [dif_neg hc, assignEntry_append hnkr, hr, hdec]
        simp

theorem keyUnder_inj (p : String) {p1 p2 : List String}
    (h1 : ∀ s ∈ p1, goodSeg s = true) (h2 : ∀ s ∈ p2, goodSeg s = true)
    (hn1 : p1 ≠ []) (hn2 : p2 ≠ []) (heq : keyUnder p p1 = keyUnder p p2) : p1 = p2 := by
  unfold keyUnder at heq
  by_cases hp : p = ""
  · rw [if_pos hp, if_pos hp] at heq
    exact joinPath_inj p1 p2 h1 h2 hn1 hn2 heq
  · rw [if_neg hp, if_neg hp] at heq
    have hd := congrArg String.data heq
    simp only [String.data_append, dot_data, List.append_assoc, List.singleton_append] at hd
    have h3 := List.append_cancel_left hd
    have h4 := (List.cons.inj h3).2
    exact joinPath_inj p1 p2 h1 h2 hn1 hn2 (String.ext h4)

theorem mleaves_keys_nodup (es : List (String × JVal)) (p : String) (hg : goodE es = true) :
    ((mleaves es p).map Prod.fst).Nodup := by
  unfold mleaves
  rw [List.map_map]
  have hmm : (Prod.fst ∘ fun pu : List String × JVal => (keyUnder p pu.1, pu.2)) =
      (fun pu : List String × JVal => keyUnder p pu.1) := rfl
  rw [hmm]
  have hsplit : (leavesE es).map (fun pu => keyUnder p pu.1) =
      ((leavesE es).map Prod.fst).map (keyUnder p) := by
    rw [List.map_map]
    rfl
  rw [hsplit]
  apply List.Nodup.map_on ?_ (leavesE_paths_nodup (jsizeE es) es le_rfl hg)
  intro x hx y hy hxy
  rcases List.mem_map.mp hx with ⟨pux, hpux, hxq⟩
  rcases List.mem_map.mp hy with ⟨puy, hpuy, hyq⟩
  have hgx : ∀ s ∈ x, goodSeg s = true := by
    intro s hs
    rw [← hxq] at hs
    exact leavesE_segs_good (jsizeE es) es le_rfl hg pux hpux s hs
  have hgy : ∀ s ∈ y, goodSeg s = true := by
    intro s hs
    rw [← hyq] at hs
    exact leavesE_segs_good (jsizeE es) es le_rfl hg puy hpuy s hs
  have hnx : x ≠ [] := by
    rcases leavesE_path_shape es pux hpux with ⟨k', s', hs', -⟩
    rw [← hxq, hs']
    simp
  have hny : y ≠ [] := by
    rcases leavesE_path_shape es puy hpuy with ⟨k', s', hs', -⟩
    rw [← hyq, hs']
    simp
  exact keyUnder_inj p hgx hgy hnx hny hxy

/-- The flattening/leaves correspondence: on documents whose keys are
well-formed (`goodE`), `flattenObj` produces exactly the leaves of the
document keyed by their dot-joined paths, and these keys are pairwise
distinct. -/
theorem flattenE_leaves_of_good (es : List (String × JVal)) (hg : goodE es = true) :
    flattenE es "" [] = (leavesE es).map (fun pu => (joinPath pu.1, pu.2)) ∧
    ((leavesE es).map (fun pu => joinPath pu.1)).Nodup := by
  have hku : mleaves es "" = (leavesE es).map (fun pu => (joinPath pu.1, pu.2)) := by
    unfold mleaves keyUnder
    simp
  have hnd := mleaves_keys_nodup es "" hg
  constructor
  · have hx := flattenE_mleaves (jsizeE es) es le_rfl "" [] hg hnd (by simp)
    rw [hx, hku]
    simp
  · have hy : ((mleaves es "").map Prod.fst) =
        (leavesE es).map (fun pu => joinPath pu.1) := by
      rw [hku, List.map_map]
      rfl
    rw [hy] at hnd
    exact hnd

theorem enumFrom_snd_mem :
    ∀ (vs : List JVal) (i : Nat) (iv : String × JVal), iv ∈ enumFrom i vs → iv.2 ∈ vs := by
  intro vs
  induction vs with
  | nil => intro i iv h; simp [enumFrom] at h
  | cons v vs ih =>
    intro i iv h
    simp only [enumFrom] at h
    rcases List.mem_cons.mp h with rfl | h'
    · simp
    · exact List.mem_cons_of_mem _ (ih (i + 1) iv h')

theorem leavesE_all_leaves :
    ∀ (l : List (String × JVal)), (∀ kv ∈ l, isContainer kv.2 = false) →
      leavesE l = l.map (fun kv => ([kv.1], kv.2)) := by
  intro l
  induction l with
  | nil => intro _; simp [leavesE]
  | cons kv rest ih =>
    intro h
    rcases kv with ⟨k, v⟩
    have hv : isContainer v = false := h (k, v) (by simp)
    simp only [leavesE]
    rw [dif_neg (by simp [hv])]
    rw [ih (fun kv hkv => h kv (List.mem_cons_of_mem _ hkv))]
    simp

/-- C7 (amended): flattening is total and injective on leaves only for
well-formed documents — all mapping keys (including the stringified
array indices) nonempty, dot-free and duplicate-free at each level
(`goodE`).  For such documents the flattened output is exactly the list
of the document's leaves keyed by their dot-joined paths, and those
keys are pairwise distinct: every leaf appears under exactly one
flattened key, and no flattened key corresponds to more than one source
leaf.  (Without the well-formedness condition the claim is false: see
the counterexample, where two leaves collide on one flattened key and
one of them is lost.) -/
theorem flatten_total_injective_on_leaves (es : List (String × JVal))
    (hg : goodE es = true) :
    flattenE es "" [] = (leavesE es).map (fun pu => (joinPath pu.1, pu.2)) ∧
    ((leavesE es).map (fun pu => joinPath pu.1)).Nodup :=
  flattenE_leaves_of_good es hg

theorem enumFrom_fst_toString :
    ∀ (vs : List JVal) (i : Nat) (k : String), k ∈ (enumFrom i vs).map Prod.fst →
      ∃ j, j < vs.length ∧ k = toString (i + j) := by
  intro vs
  induction vs with
  | nil => intro i k h; simp [enumFrom] at h
  | cons v vs ih =>
    intro i k h
    simp only [enumFrom, List.map_cons] at h
    rcases List.mem_cons.mp h with rfl | h'
    · exact ⟨0, by simp, by simp⟩
    · rcases ih (i + 1) k h' with ⟨j, hj, hk⟩
      refine ⟨j + 1, by simp; omega, ?_⟩
      rw [hk]
      congr 1
      omega

theorem leavesE_enumFrom_scalar_mem :
    ∀ (vs : List JVal) (i j : Nat) (v' : JVal), vs[j]? = some v' → isContainer v' = false →
      ([toString (i + j)], v') ∈ leavesE (enumFrom i vs) := by
  intro vs
  induction vs with
  | nil => intro i j v' h; simp at h
  | cons v vs ih =>
    intro i j v' h hc
    rcases j with _ | j
    · simp at h
      subst h
      simp only [enumFrom, leavesE]
      rw [dif_neg (by simp [hc])]
      simp
    · simp at h
      have hmem := ih (i + 1) j v' h hc
      simp only [enumFrom, leavesE]
      have hidx : i + (j + 1) = (i + 1) + j := by omega
      rw [hidx]
      exact List.mem_append.mpr (Or.inr hmem)

/-- C6 (amended): the flattening step recurses into every array exactly
as into a map — JavaScript's `typeof` test classifies arrays as objects
and `for … in` enumerates their indices as the string keys "0", "1", ….
Every array in every document is flattened by exactly the call modelled
here, `flattenObj(arrayValue, newKey)` = `flattenE (enumFrom 0 vs) nk []`,
where `nk` is the accumulated (nonempty, possibly dotted) parent key of
the array.  For an array whose contents have well-formed keys
(`goodE`): the produced entries are exactly the array's leaves under
index-based dot-joined keys (so `nk.i` for a scalar element at index
`i`, and `nk.i.<subpath>` for a leaf inside a nested-map element);
every produced key carries such an index segment; and every scalar
(non-container) element at index `i` really does appear under the key
`nk.i`. -/
theorem flatten_array_index_keys (vs : List JVal) (nk : String)
    (hnk : nk ≠ "") (hg : goodE (enumFrom 0 vs) = true) :
    flattenE (enumFrom 0 vs) nk [] =
      (leavesE (enumFrom 0 vs)).map (fun pu => (nk ++ "." ++ joinPath pu.1, pu.2)) ∧
    (∀ kv ∈ flattenE (enumFrom 0 vs) nk [],
      ∃ j rest, j < vs.length ∧ kv.1 = nk ++ "." ++ joinPath (toString j :: rest)) ∧
    (∀ (j : Nat) (v' : JVal), vs[j]? = some v' → isContainer v' = false →
      (nk ++ "." ++ toString j, v') ∈ flattenE (enumFrom 0 vs) nk []) := by
  have hnd := mleaves_keys_nodup (enumFrom 0 vs) nk hg
  have heq0 : flattenE (enumFrom 0 vs) nk [] = mleaves (enumFrom 0 vs) nk := by
    have hx := flattenE_mleaves (jsizeE (enumFrom 0 vs)) (enumFrom 0 vs) le_rfl nk []
      hg hnd (by simp)
    simpa using hx
  have heq : flattenE (enumFrom 0 vs) nk [] =
      (leavesE (enumFrom 0 vs)).map (fun pu => (nk ++ "." ++ joinPath pu.1, pu.2)) := by
    rw [heq0]
    unfold mleaves keyUnder
    simp [hnk]
  refine ⟨heq, ?_, ?_⟩
  · intro kv hkv
    rw [heq] at hkv
    rcases List.mem_map.mp hkv with ⟨pu, hpu, hkv2⟩
    rcases leavesE_path_shape (enumFrom 0 vs) pu hpu with ⟨k', s', hs', hk'⟩
    rcases enumFrom_fst_toString vs 0 k' hk' with ⟨j, hj, hkj⟩
    refine ⟨j, s', hj, ?_⟩
    rw [← hkv2]
    dsimp only
    rw [hs', hkj, Nat.zero_add]
  · intro j v' hj hc
    have hmem := leavesE_enumFrom_scalar_mem vs 0 j v' hj hc
    rw [Nat.zero_add] at hmem
    rw [heq]
    refine List.mem_map.mpr ⟨([toString j], v'), hmem, ?_⟩
    dsimp only
    rw [joinPath_single]

theorem flatten_array_index_keys_witness :
    ("key" : String) ≠ "" ∧
    goodE (enumFrom 0 [JVal.obj [("a", JVal.scalar "x")], JVal.scalar "y"]) = true ∧
    (flattenE (enumFrom 0 [JVal.obj [("a", JVal.scalar "x")], JVal.scalar "y"]) "key" [] =
      (leavesE (enumFrom 0 [JVal.obj [("a", JVal.scalar "x")], JVal.scalar "y"])).map
        (fun pu => ("key" ++ "." ++ joinPath pu.1, pu.2)) ∧
    (∀ kv ∈ flattenE (enumFrom 0 [JVal.obj [("a", JVal.scalar "x")], JVal.scalar "y"]) "key" [],
      ∃ j rest, j < ([JVal.obj [("a", JVal.scalar "x")], JVal.scalar "y"] : List JVal).length ∧
        kv.1 = "key" ++ "." ++ joinPath (toString j :: rest)) ∧
    (∀ (j : Nat) (v' : JVal),
      ([JVal.obj [("a", JVal.scalar "x")], JVal.scalar "y"] : List JVal)[j]? = some v' →
      isContainer v' = false →
      ("key" ++ "." ++ toString j, v') ∈
        flattenE (enumFrom 0 [JVal.obj [("a", JVal.scalar "x")], JVal.scalar "y"]) "key" [])) :=
  ⟨by decide,
   by simp only [goodE, entriesOf, enumFrom, toString_nat_zero, toString_nat_one]; decide,
   flatten_array_index_keys [JVal.obj [("a", JVal.scalar "x")], JVal.scalar "y"] "key"
     (by decide)
     (by simp only [goodE, entriesOf, enumFrom, toString_nat_zero, toString_nat_one]; decide)⟩

theorem flatten_total_injective_on_leaves_witness :
    goodE [("db", JVal.obj [("host", .scalar "localhost"),
        ("ports", .arr [.scalar "80", .scalar "443"])]), ("mode", JVal.scalar "dev")] = true ∧
    (flattenE [("db", JVal.obj [("host", .scalar "localhost"),
        ("ports", .arr [.scalar "80", .scalar "443"])]), ("mode", JVal.scalar "dev")] "" [] =
      (leavesE [("db", JVal.obj [("host", .scalar "localhost"),
        ("ports", .arr [.scalar "80", .scalar "443"])]), ("mode", JVal.scalar "dev")]).map
        (fun pu => (joinPath pu.1, pu.2)) ∧
    ((leavesE [("db", JVal.obj [("host", .scalar "localhost"),
        ("ports", .arr [.scalar "80", .scalar "443"])]), ("mode", JVal.scalar "dev")]).map
        (fun pu => joinPath pu.1)).Nodup) :=
  ⟨by simp only [goodE, entriesOf, enumFrom, toString_nat_zero, toString_nat_one]; decide,
   flatten_total_injective_on_leaves _
     (by simp only [goodE, entriesOf, enumFrom, toString_nat_zero, toString_nat_one]; decide)⟩

end CompareEnv
